import Mathlib

/-!
Shallow embedding of the MPI image-processing program (main.cpp) and
verification of its specification claims.

The program splits an image of `height` rows among `size` workers,
each worker resamples its row block to a new height with nearest-neighbor
row selection (resize_rows), applies a per-byte filter (apply_filter),
and the coordinator gathers the blocks back at computed offsets.

Bytes are modelled as natural numbers (value range checked where a claim
needs it); buffers are lists of bytes in row-major, channel-interleaved
order.  C++ nonnegative int division is truncating division, which agrees
with Nat division.
-/

/-! ## Partition Planner (main.cpp lines 115-118, 126-133, 136, 141-151) -/

/-- Input row count of worker `rank`:
`rowsPerProc + (rank < remainder ? 1 : 0)` with
`rowsPerProc = height / size` and `remainder = height % size`. -/
def localInHeight (height size rank : ℕ) : ℕ :=
  height / size + if rank < height % size then 1 else 0

/-- First input row of worker `rank`:
`rank * rowsPerProc + min(rank, remainder)`. -/
def startRow (height size rank : ℕ) : ℕ :=
  rank * (height / size) + min rank (height % size)

/-- Output row count of worker `rank`:
`newHeight * localInHeight / height` (truncating division), as computed
both by each worker (line 136) and by the coordinator (line 145). -/
def localOutHeight (newHeight height size rank : ℕ) : ℕ :=
  newHeight * localInHeight height size rank / height

/-- Gather byte count for worker `i`: `outRows * width * channels`
(line 146). -/
def recvCount (newHeight height size width channels i : ℕ) : ℕ :=
  localOutHeight newHeight height size i * width * channels

/-- Gather byte offset for worker `i`: the running `offset` accumulated
by the coordinator loop (lines 143-149). -/
def recvDispl (newHeight height size width channels : ℕ) : ℕ → ℕ
  | 0 => 0
  | i + 1 => recvDispl newHeight height size width channels i
      + recvCount newHeight height size width channels i

/-! ## Row Resampler (main.cpp lines 21-33) -/

/-- Flat input index read by resize_rows to produce output position
`(y, x, c)`: `(srcY * width + x) * channels + c` with
`srcY = y * inHeight / outHeight` (lines 24, 27-28). -/
def resizeReadIndex (inHeight outHeight width channels y x c : ℕ) : ℕ :=
  (y * inHeight / outHeight * width + x) * channels + c

/-- Nearest-neighbor row resampling: the triple loop over output rows,
columns and channels (lines 22-32).  Out-of-range reads (undefined
behavior in the C++) are modelled as reading 0. -/
def resize_rows (data : List ℕ) (width inHeight outHeight channels : ℕ) : List ℕ :=
  (List.range outHeight).flatMap fun y =>
    (List.range width).flatMap fun x =>
      (List.range channels).map fun c =>
        data.getD (resizeReadIndex inHeight outHeight width channels y x c) 0

/-! ## Pixel Filter (main.cpp lines 35-55)

The contrast branch computes `(int)((data[i] - 128) * 1.2f + 128)` in
IEEE-754 binary32 arithmetic.  We model that arithmetic exactly with
scaled integers: a float value v is represented by the integer n with
v = n / 2^23, and each arithmetic step is followed by rounding to the
nearest representable binary32 value (round-to-nearest, ties-to-even),
which for this value range (magnitude below 2^31, so 24-bit mantissa,
no overflow, no subnormal loss) is rounding n to the nearest multiple
of 2^(bitlength(|n|) - 24).  The literal 1.2f is exactly
10066330 / 2^23. -/

/-- Fuel-based floor of log2 (structural recursion so that kernel
evaluation works); `floorLog2 n = Nat.log2 n` for the fuel `n` used. -/
def log2Aux : ℕ → ℕ → ℕ
  | 0, _ => 0
  | f + 1, n => if 2 ≤ n then log2Aux f (n / 2) + 1 else 0

/-- Floor of the base-2 logarithm. -/
def floorLog2 (n : ℕ) : ℕ := log2Aux n n

/-- Round the integer `n` to the nearest multiple of `2 ^ k`,
ties to the even multiple. -/
def rne (n : ℤ) (k : ℕ) : ℤ :=
  let m : ℤ := ((2 ^ k : ℕ) : ℤ)
  let q := Int.ediv n m
  let r := Int.emod n m
  if 2 * r < m then q * m
  else if m < 2 * r then (q + 1) * m
  else if Int.emod q 2 = 0 then q * m else (q + 1) * m

/-- Round a 2^23-scaled value to the nearest binary32 value
(identity when the scaled magnitude is below 2^24, where the value is
already exactly representable). -/
def floatRound (n : ℤ) : ℤ :=
  if n.natAbs < 16777216 then n else rne n (floorLog2 n.natAbs - 23)

/-- The contrast branch on one byte (lines 47-53):
`int val = (int)((b - 128) * 1.2f + 128); clamp to [0, 255]`.
`10066330` is the 2^23-scaled value of 1.2f, `1073741824 = 128 * 2^23`
is the scaled 128, and the final `Int.tdiv` by `8388608 = 2^23` is the
C-style cast to int, truncation toward zero. -/
def contrast_byte (b : ℕ) : ℕ :=
  let a : ℤ := (b : ℤ) - 128
  let prod := floatRound (a * 10066330)
  let s := floatRound (prod + 1073741824)
  let val := Int.tdiv s 8388608
  let val := if val < 0 then 0 else val
  let val := if 255 < val then 255 else val
  val.toNat

/-- The C++ loops write indices `i < width * height * channels`; this maps
`f` over the first `n` elements of the buffer and leaves the rest. -/
def mapBelow (f : ℕ → ℕ) : ℕ → List ℕ → List ℕ
  | _, [] => []
  | 0, l => l
  | n + 1, b :: l => f b :: mapBelow f n l

/-- The filter dispatch (lines 35-55): invert is `255 - b`, brightness is
`b + 50` clamped above at 255, contrast is `contrast_byte`, and any other
filter string leaves the buffer unchanged. -/
def apply_filter (data : List ℕ) (width height channels : ℕ) (filterType : String) : List ℕ :=
  if filterType = "invert" then
    mapBelow (fun b => 255 - b) (width * height * channels) data
  else if filterType = "brightness" then
    mapBelow (fun b => if b + 50 > 255 then 255 else b + 50) (width * height * channels) data
  else if filterType = "contrast" then
    mapBelow contrast_byte (width * height * channels) data
  else
    data

/-- The contrast formula exactly as the specification states it:
`clamp(round((pixel - 128) * 1.2 + 128), 0, 255)`, with exact rational
arithmetic and rounding to the nearest integer. -/
def contrast_claim_formula (b : ℕ) : ℕ :=
  (max 0 (min 255 (round (((b : ℚ) - 128) * 1.2 + 128)))).toNat

/-! ## Helper lemmas: partition planner -/

lemma startRow_step (h s i : ℕ) :
    startRow h s (i + 1) = startRow h s i + localInHeight h s i := by
  simp only [startRow, localInHeight, Nat.succ_mul]
  split_ifs with h1 <;> omega

lemma startRow_mono (h s : ℕ) {i j : ℕ} (hij : i ≤ j) :
    startRow h s i ≤ startRow h s j := by
  simp only [startRow]
  have h1 : i * (h / s) ≤ j * (h / s) := Nat.mul_le_mul_right _ hij
  have h2 : min i (h % s) ≤ min j (h % s) := by omega
  omega

lemma startRow_zero (h s : ℕ) : startRow h s 0 = 0 := by
  simp [startRow]

lemma startRow_last (h s : ℕ) (hs : 1 ≤ s) : startRow h s s = h := by
  have hlt : h % s < s := Nat.mod_lt _ hs
  simp only [startRow]
  have hmin : min s (h % s) = h % s := min_eq_right (le_of_lt hlt)
  rw [hmin]
  exact Nat.div_add_mod h s

lemma sum_ite_lt (s r : ℕ) :
    (∑ i ∈ Finset.range s, (if i < r then 1 else 0)) = min r s := by
  induction s with
  | zero => simp
  | succ n ih =>
    rw [Finset.sum_range_succ, ih]
    split_ifs with h <;> omega

lemma sum_localInHeight (h s : ℕ) (hs : 1 ≤ s) :
    (∑ i ∈ Finset.range s, localInHeight h s i) = h := by
  simp only [localInHeight]
  rw [Finset.sum_add_distrib, sum_ite_lt, Finset.sum_const, Finset.card_range,
    smul_eq_mul]
  have hlt : h % s < s := Nat.mod_lt _ hs
  have hmin : min (h % s) s = h % s := min_eq_left (le_of_lt hlt)
  rw [hmin]
  exact Nat.div_add_mod h s

lemma startRow_cover (h s : ℕ) :
    ∀ k r, r < startRow h s k →
      ∃ i, i < k ∧ startRow h s i ≤ r ∧ r < startRow h s i + localInHeight h s i := by
  intro k
  induction k with
  | zero => intro r hr; rw [startRow_zero] at hr; omega
  | succ m ih =>
    intro r hr
    rcases Nat.lt_or_ge r (startRow h s m) with hrm | hrm
    · obtain ⟨i, hi, hle, hlt⟩ := ih r hrm
      exact ⟨i, Nat.lt_succ_of_lt hi, hle, hlt⟩
    · rw [startRow_step] at hr
      exact ⟨m, Nat.lt_succ_self m, hrm, hr⟩

/-- C1: for every height >= 1 and workerCount >= 1 the Partition Planner
input row ranges form a contiguous, non-overlapping, gap-free cover of
[0, height): ranges start at 0, each range starts where the previous one
ends, earlier ranges end before later ones begin, every row below height
lies in some range, the ranges end exactly at height, and the input row
counts sum to height. -/
theorem partition_planner_tiles (h s : ℕ) (hh : 1 ≤ h) (hs : 1 ≤ s) :
    startRow h s 0 = 0 ∧
    (∀ i, startRow h s (i + 1) = startRow h s i + localInHeight h s i) ∧
    (∀ i j, i < j → startRow h s i + localInHeight h s i ≤ startRow h s j) ∧
    (∀ r, r < h → ∃ i, i < s ∧ startRow h s i ≤ r ∧
        r < startRow h s i + localInHeight h s i) ∧
    startRow h s s = h ∧
    (∑ i ∈ Finset.range s, localInHeight h s i) = h := by
  refine ⟨startRow_zero h s, fun i => startRow_step h s i, ?_, ?_, startRow_last h s hs,
    sum_localInHeight h s hs⟩
  · intro i j hij
    rw [← startRow_step]
    exact startRow_mono h s hij
  · intro r hr
    have hr' : r < startRow h s s := by rw [startRow_last h s hs]; exact hr
    exact startRow_cover h s s r hr'

/-- Witness for C1 at height 5, workerCount 3. -/
theorem partition_planner_tiles_witness :
    (1 ≤ 5 ∧ 1 ≤ 3) ∧
    (startRow 5 3 0 = 0 ∧
      (∀ i, startRow 5 3 (i + 1) = startRow 5 3 i + localInHeight 5 3 i) ∧
      (∀ i j, i < j → startRow 5 3 i + localInHeight 5 3 i ≤ startRow 5 3 j) ∧
      (∀ r, r < 5 → ∃ i, i < 3 ∧ startRow 5 3 i ≤ r ∧
          r < startRow 5 3 i + localInHeight 5 3 i) ∧
      startRow 5 3 3 = 5 ∧
      (∑ i ∈ Finset.range 3, localInHeight 5 3 i) = 5) :=
  ⟨by omega, partition_planner_tiles 5 3 (by omega) (by omega)⟩

/-! ## Helper lemmas: output row accounting -/

lemma div_add_div_le (a b h : ℕ) : a / h + b / h ≤ (a + b) / h := by
  rcases Nat.eq_zero_or_pos h with hz | hp
  · subst hz; simp
  · rw [Nat.le_div_iff_mul_le hp, Nat.add_mul]
    have ha : a / h * h ≤ a := Nat.div_mul_le_self a h
    have hb : b / h * h ≤ b := Nat.div_mul_le_self b h
    omega

lemma sum_div_le (s h : ℕ) (g : ℕ → ℕ) :
    (∑ i ∈ Finset.range s, g i / h) ≤ (∑ i ∈ Finset.range s, g i) / h := by
  induction s with
  | zero => simp
  | succ n ih =>
    rw [Finset.sum_range_succ, Finset.sum_range_succ]
    calc (∑ i ∈ Finset.range n, g i / h) + g n / h
        ≤ (∑ i ∈ Finset.range n, g i) / h + g n / h := by omega
      _ ≤ ((∑ i ∈ Finset.range n, g i) + g n) / h := div_add_div_le _ _ _

lemma sum_localOutHeight_le (nH h s : ℕ) (hh : 1 ≤ h) (hs : 1 ≤ s) :
    (∑ i ∈ Finset.range s, localOutHeight nH h s i) ≤ nH := by
  simp only [localOutHeight]
  calc (∑ i ∈ Finset.range s, nH * localInHeight h s i / h)
      ≤ (∑ i ∈ Finset.range s, nH * localInHeight h s i) / h := sum_div_le _ _ _
    _ = nH * h / h := by rw [← Finset.mul_sum, sum_localInHeight h s hs]
    _ = nH := Nat.mul_div_cancel nH hh

lemma sum_localOutHeight_ge (nH h s : ℕ) (hh : 1 ≤ h) (hs : 1 ≤ s) :
    nH < (∑ i ∈ Finset.range s, localOutHeight nH h s i) + s := by
  have key : ∀ i, nH * localInHeight h s i < h * (localOutHeight nH h s i + 1) := by
    intro i
    have hdm := Nat.div_add_mod (nH * localInHeight h s i) h
    have hm : nH * localInHeight h s i % h < h := Nat.mod_lt _ hh
    simp only [localOutHeight]
    rw [Nat.mul_add, Nat.mul_one]
    omega
  have hsum : nH * h < ∑ i ∈ Finset.range s, h * (localOutHeight nH h s i + 1) := by
    have hne : (Finset.range s).Nonempty := Finset.nonempty_range_iff.mpr (by omega)
    calc nH * h = nH * ∑ i ∈ Finset.range s, localInHeight h s i := by
          rw [sum_localInHeight h s hs]
      _ = ∑ i ∈ Finset.range s, nH * localInHeight h s i := Finset.mul_sum _ _ _
      _ < ∑ i ∈ Finset.range s, h * (localOutHeight nH h s i + 1) :=
          Finset.sum_lt_sum_of_nonempty hne (fun i _ => key i)
  have hrw : (∑ i ∈ Finset.range s, h * (localOutHeight nH h s i + 1))
      = h * ((∑ i ∈ Finset.range s, localOutHeight nH h s i) + s) := by
    rw [← Finset.mul_sum, Finset.sum_add_distrib, Finset.sum_const, Finset.card_range,
      smul_eq_mul, mul_one]
  rw [hrw] at hsum
  have := Nat.lt_of_mul_lt_mul_left (a := h)
    (by rw [Nat.mul_comm nH h] at hsum; exact hsum)
  exact this

/-- C2: for every height >= 1, newHeight and workerCount >= 1, the
per-worker output row counts floor(newHeight * localInHeight / height)
sum to at most newHeight, fall short of newHeight by at most
workerCount - 1 rows, and the gather offset of each worker equals the
prefix sum of the preceding output row counts times width * channels, so
consecutive gathered blocks are contiguous and non-overlapping. -/
theorem output_rows_accounting (nH h s w c : ℕ) (hh : 1 ≤ h) (hs : 1 ≤ s) :
    (∑ i ∈ Finset.range s, localOutHeight nH h s i) ≤ nH ∧
    nH - (∑ i ∈ Finset.range s, localOutHeight nH h s i) ≤ s - 1 ∧
    (∀ i, recvDispl nH h s w c i
      = (∑ j ∈ Finset.range i, localOutHeight nH h s j) * (w * c)) ∧
    (∀ i, recvDispl nH h s w c (i + 1)
      = recvDispl nH h s w c i + localOutHeight nH h s i * (w * c)) := by
  refine ⟨sum_localOutHeight_le nH h s hh hs, ?_, ?_, ?_⟩
  · have := sum_localOutHeight_ge nH h s hh hs
    omega
  · intro i
    induction i with
    | zero => simp [recvDispl]
    | succ n ih =>
      rw [Finset.sum_range_succ]
      simp only [recvDispl, recvCount, ih]
      ring
  · intro i
    simp only [recvDispl, recvCount]
    ring

/-- Witness for C2 at newHeight 7, height 5, workerCount 3, width 2,
channels 3. -/
theorem output_rows_accounting_witness :
    (1 ≤ 5 ∧ 1 ≤ 3) ∧
    ((∑ i ∈ Finset.range 3, localOutHeight 7 5 3 i) ≤ 7 ∧
      7 - (∑ i ∈ Finset.range 3, localOutHeight 7 5 3 i) ≤ 3 - 1 ∧
      (∀ i, recvDispl 7 5 3 2 3 i
        = (∑ j ∈ Finset.range i, localOutHeight 7 5 3 j) * (2 * 3)) ∧
      (∀ i, recvDispl 7 5 3 2 3 (i + 1)
        = recvDispl 7 5 3 2 3 i + localOutHeight 7 5 3 i * (2 * 3))) :=
  ⟨by omega, output_rows_accounting 7 5 3 2 3 (by omega) (by omega)⟩

/-! ## Helper lemmas: indexing flattened loop output -/

lemma length_flatMap_const (f : ℕ → List ℕ) (L n : ℕ)
    (hf : ∀ i, i < n → (f i).length = L) :
    ((List.range n).flatMap f).length = n * L := by
  induction n with
  | zero => simp
  | succ m ih =>
    rw [List.range_succ, List.flatMap_append, List.length_append,
      ih (fun i hi => hf i (Nat.lt_succ_of_lt hi))]
    have hm : (f m).length = L := hf m (Nat.lt_succ_self m)
    simp only [List.flatMap_cons, List.flatMap_nil, List.append_nil]
    rw [hm, Nat.succ_mul]

lemma getD_flatMap_range (f : ℕ → List ℕ) (L n j r : ℕ)
    (hf : ∀ i, i < n → (f i).length = L) (hj : j < n) (hr : r < L) :
    ((List.range n).flatMap f).getD (j * L + r) 0 = (f j).getD r 0 := by
  induction n with
  | zero => omega
  | succ m ih =>
    rw [List.range_succ, List.flatMap_append]
    have hfm : ∀ i, i < m → (f i).length = L := fun i hi => hf i (Nat.lt_succ_of_lt hi)
    have hlen : ((List.range m).flatMap f).length = m * L := length_flatMap_const f L m hfm
    rcases Nat.lt_or_ge j m with hjm | hjm
    · rw [List.getD_append]
      · exact ih hfm hjm
      · rw [hlen]
        calc j * L + r < j * L + L := by omega
          _ = (j + 1) * L := (Nat.succ_mul j L).symm
          _ ≤ m * L := Nat.mul_le_mul_right L hjm
    · have hjm' : j = m := by omega
      subst hjm'
      rw [List.getD_append_right _ _ _ _ (by rw [hlen]; exact Nat.le_add_right _ _)]
      rw [hlen, Nat.add_sub_cancel_left]
      simp only [List.flatMap_cons, List.flatMap_nil, List.append_nil]

lemma resize_rows_row_length (data : List ℕ) (w inH outH ch y : ℕ) :
    ((List.range w).flatMap fun x => (List.range ch).map fun c =>
      data.getD (resizeReadIndex inH outH w ch y x c) 0).length = w * ch := by
  refine length_flatMap_const _ ch w (fun x _ => ?_)
  simp

lemma resize_rows_length (data : List ℕ) (w inH outH ch : ℕ) :
    (resize_rows data w inH outH ch).length = w * outH * ch := by
  unfold resize_rows
  rw [length_flatMap_const _ (w * ch) outH
    (fun y _ => resize_rows_row_length data w inH outH ch y)]
  ring

lemma resize_rows_getD (data : List ℕ) (w inH outH ch y x c : ℕ)
    (hy : y < outH) (hx : x < w) (hc : c < ch) :
    (resize_rows data w inH outH ch).getD ((y * w + x) * ch + c) 0
      = data.getD (resizeReadIndex inH outH w ch y x c) 0 := by
  unfold resize_rows
  have hidx : (y * w + x) * ch + c = y * (w * ch) + (x * ch + c) := by ring
  have hin : x * ch + c < w * ch := by
    calc x * ch + c < x * ch + ch := by omega
      _ = (x + 1) * ch := (Nat.succ_mul x ch).symm
      _ ≤ w * ch := Nat.mul_le_mul_right ch hx
  rw [hidx, getD_flatMap_range _ (w * ch) outH y (x * ch + c)
    (fun i _ => resize_rows_row_length data w inH outH ch i) hy hin]
  rw [getD_flatMap_range _ ch w x c (fun i _ => by simp) hx hc]
  rw [List.getD_eq_getElem _ _ (by simpa using hc), List.getElem_map,
    List.getElem_range]

/-- C3: the Row Resampler output has size width * outHeight * channels and
its byte at position (y, x, c) equals the input byte at row
floor(y * inHeight / outHeight), same column and channel; the width and
channel count are unchanged. -/
theorem resize_rows_nearest_neighbor (data : List ℕ) (w inH outH ch : ℕ)
    (hlen : data.length = w * inH * ch) (ho : 1 ≤ outH) :
    (resize_rows data w inH outH ch).length = w * outH * ch ∧
    ∀ y x c, y < outH → x < w → c < ch →
      (resize_rows data w inH outH ch).getD ((y * w + x) * ch + c) 0
        = data.getD ((y * inH / outH * w + x) * ch + c) 0 := by
  refine ⟨resize_rows_length data w inH outH ch, fun y x c hy hx hc => ?_⟩
  exact resize_rows_getD data w inH outH ch y x c hy hx hc

/-- Witness for C3: a 1 x 6 x 1 block downsampled to 3 rows. -/
theorem resize_rows_nearest_neighbor_witness :
    (([10, 11, 12, 13, 14, 15] : List ℕ).length = 1 * 6 * 1 ∧ 1 ≤ 3) ∧
    ((resize_rows [10, 11, 12, 13, 14, 15] 1 6 3 1).length = 1 * 3 * 1 ∧
      ∀ y x c, y < 3 → x < 1 → c < 1 →
        (resize_rows [10, 11, 12, 13, 14, 15] 1 6 3 1).getD ((y * 1 + x) * 1 + c) 0
          = ([10, 11, 12, 13, 14, 15] : List ℕ).getD ((y * 6 / 3 * 1 + x) * 1 + c) 0) :=
  ⟨by simp, resize_rows_nearest_neighbor [10, 11, 12, 13, 14, 15] 1 6 3 1 (by simp)
    (by omega)⟩

/-- C5: a worker whose planned input row count is zero gets output row
count newHeight * 0 / height = 0, and the Row Resampler call on that
partition returns the empty block: the per-row source computation is
never reached because the output row loop runs zero times. -/
theorem zero_input_rows_empty_output (nH hgt s i w ch : ℕ) (data : List ℕ)
    (hh : 1 ≤ hgt) (hz : localInHeight hgt s i = 0) :
    localOutHeight nH hgt s i = 0 ∧
    resize_rows data w (localInHeight hgt s i) (localOutHeight nH hgt s i) ch
      = [] := by
  have hout : localOutHeight nH hgt s i = 0 := by
    simp [localOutHeight, hz]
  refine ⟨hout, ?_⟩
  rw [hout]
  unfold resize_rows
  simp

/-- Witness for C5: height 2, workerCount 4, worker 3 has zero input
rows. -/
theorem zero_input_rows_empty_output_witness :
    (1 ≤ 2 ∧ localInHeight 2 4 3 = 0) ∧
    (localOutHeight 5 2 4 3 = 0 ∧
      resize_rows [9] 3 (localInHeight 2 4 3) (localOutHeight 5 2 4 3) 2 = []) :=
  ⟨by decide, zero_input_rows_empty_output 5 2 4 3 3 2 [9] (by omega) (by decide)⟩

/-- C7: resampling a block of size width * h * channels with equal input
and output heights returns the block unchanged, because every source row
index y * h / h equals y. -/
theorem resize_rows_identity (data : List ℕ) (w hgt ch : ℕ)
    (hlen : data.length = w * hgt * ch) (hh : 1 ≤ hgt) :
    resize_rows data w hgt hgt ch = data := by
  apply List.ext_getElem
  · rw [resize_rows_length, hlen]
  · intro n h₁ h₂
    have hn : n < w * hgt * ch := by
      rw [resize_rows_length] at h₁
      exact h₁
    have hpos : 0 < w * hgt * ch := Nat.lt_of_le_of_lt (Nat.zero_le n) hn
    have hw : 0 < w := by
      rcases Nat.eq_zero_or_pos w with hz | hp
      · subst hz; simp at hpos
      · exact hp
    have hch : 0 < ch := by
      rcases Nat.eq_zero_or_pos ch with hz | hp
      · subst hz; simp at hpos
      · exact hp
    have hwc : 0 < w * ch := Nat.mul_pos hw hch
    have hn' : n < (w * ch) * hgt := Nat.lt_of_lt_of_eq hn (by ring)
    have hy : n / (w * ch) < hgt := by
      rw [Nat.div_lt_iff_lt_mul hwc]
      exact Nat.lt_of_lt_of_eq hn' (by ring)
    have hx : n % (w * ch) / ch < w := by
      rw [Nat.div_lt_iff_lt_mul hch]
      exact Nat.mod_lt n hwc
    have hc : n % (w * ch) % ch < ch := Nat.mod_lt _ hch
    have hdecomp : (n / (w * ch) * w + n % (w * ch) / ch) * ch + n % (w * ch) % ch
        = n := by
      have hq1 := Nat.div_add_mod n (w * ch)
      have hq2 := Nat.div_add_mod (n % (w * ch)) ch
      calc (n / (w * ch) * w + n % (w * ch) / ch) * ch + n % (w * ch) % ch
          = (w * ch) * (n / (w * ch))
            + (ch * (n % (w * ch) / ch) + n % (w * ch) % ch) := by ring
        _ = (w * ch) * (n / (w * ch)) + n % (w * ch) := by rw [hq2]
        _ = n := hq1
    have e1 : (resize_rows data w hgt hgt ch)[n] =
        (resize_rows data w hgt hgt ch).getD n 0 :=
      (List.getD_eq_getElem _ 0 h₁).symm
    have e2 : data[n] = data.getD n 0 := (List.getD_eq_getElem _ 0 h₂).symm
    rw [e1, e2, ← hdecomp]
    rw [resize_rows_getD data w hgt hgt ch _ _ _ hy hx hc]
    have hsrc : n / (w * ch) * hgt / hgt = n / (w * ch) :=
      Nat.mul_div_cancel _ hh
    simp only [resizeReadIndex, hsrc]

/-- Witness for C7: a 2 x 2 x 1 block is unchanged by identity resize. -/
theorem resize_rows_identity_witness :
    (([1, 2, 3, 4] : List ℕ).length = 2 * 2 * 1 ∧ 1 ≤ 2) ∧
    resize_rows [1, 2, 3, 4] 2 2 2 1 = [1, 2, 3, 4] :=
  ⟨by simp, resize_rows_identity [1, 2, 3, 4] 2 2 1 (by simp) (by omega)⟩

/-- C10: when the input buffer has length width * inHeight * channels and
inHeight is positive whenever outHeight is, every flat index the Row
Resampler reads is strictly below the buffer length, because the source
row y * inHeight / outHeight stays below inHeight. -/
theorem resize_read_index_in_bounds (data : List ℕ) (w inH outH ch : ℕ)
    (hlen : data.length = w * inH * ch) (himp : 1 ≤ outH → 1 ≤ inH) :
    ∀ y x c, y < outH → x < w → c < ch →
      resizeReadIndex inH outH w ch y x c < data.length := by
  intro y x c hy hx hc
  have ho : 1 ≤ outH := by omega
  have hi : 1 ≤ inH := himp ho
  have hsrc : y * inH / outH < inH := by
    rw [Nat.div_lt_iff_lt_mul ho, Nat.mul_comm inH outH]
    have h1 : (y + 1) * inH ≤ outH * inH := Nat.mul_le_mul_right inH hy
    have h2 : (y + 1) * inH = y * inH + inH := Nat.succ_mul y inH
    omega
  have hrow : y * inH / outH * w + x < inH * w := by
    calc y * inH / outH * w + x < y * inH / outH * w + w := by omega
      _ = (y * inH / outH + 1) * w := (Nat.succ_mul _ _).symm
      _ ≤ inH * w := Nat.mul_le_mul_right w hsrc
  have hidx : (y * inH / outH * w + x) * ch + c < (inH * w) * ch := by
    calc (y * inH / outH * w + x) * ch + c
        < (y * inH / outH * w + x) * ch + ch := by omega
      _ = (y * inH / outH * w + x + 1) * ch := (Nat.succ_mul _ _).symm
      _ ≤ (inH * w) * ch := Nat.mul_le_mul_right ch hrow
  have hcomm : (inH * w) * ch = w * inH * ch := by ring
  simp only [resizeReadIndex]
  omega

/-- Witness for C10: upsampling a 1 x 2 x 1 buffer to 3 rows, all read
indices are in bounds. -/
theorem resize_read_index_in_bounds_witness :
    (([5, 6] : List ℕ).length = 1 * 2 * 1 ∧ (1 ≤ 3 → 1 ≤ 2)) ∧
    (∀ y x c, y < 3 → x < 1 → c < 1 →
      resizeReadIndex 2 3 1 1 y x c < ([5, 6] : List ℕ).length) :=
  ⟨by simp, resize_read_index_in_bounds [5, 6] 1 2 3 1 (by simp) (by omega)⟩

/-! ## Helper lemmas: filters -/

lemma mapBelow_nil (f : ℕ → ℕ) (n : ℕ) : mapBelow f n [] = [] := by
  cases n <;> rfl

lemma mapBelow_full (f : ℕ → ℕ) (l : List ℕ) : mapBelow f l.length l = l.map f := by
  induction l with
  | nil => rfl
  | cons b t ih => simp [mapBelow, ih]

lemma mapBelow_append (f : ℕ → ℕ) (l₁ l₂ : List ℕ) (n : ℕ) :
    mapBelow f (l₁.length + n) (l₁ ++ l₂) = l₁.map f ++ mapBelow f n l₂ := by
  induction l₁ with
  | nil => simp
  | cons b t ih => simp [mapBelow, Nat.succ_add, ih]

lemma apply_filter_eq_map (data : List ℕ) (w hgt ch : ℕ) (ft : String)
    (hlen : data.length = w * hgt * ch) :
    apply_filter data w hgt ch ft =
      if ft = "invert" then data.map (fun b => 255 - b)
      else if ft = "brightness" then
        data.map (fun b => if b + 50 > 255 then 255 else b + 50)
      else if ft = "contrast" then data.map contrast_byte
      else data := by
  simp only [apply_filter, ← hlen, mapBelow_full]

/-- C6: applying the Invert filter twice to a byte block of size
width * height * channels restores the block, since every byte is mapped
to 255 - b and 255 - (255 - b) = b for bytes below 256. -/
theorem invert_twice_identity (data : List ℕ) (w hgt ch : ℕ)
    (hlen : data.length = w * hgt * ch) (hbytes : ∀ b ∈ data, b < 256) :
    apply_filter (apply_filter data w hgt ch "invert") w hgt ch "invert" = data := by
  have h1 : apply_filter data w hgt ch "invert" = data.map (fun b => 255 - b) := by
    rw [apply_filter_eq_map data w hgt ch "invert" hlen]
    simp
  have hlen2 : (apply_filter data w hgt ch "invert").length = w * hgt * ch := by
    rw [h1, List.length_map, hlen]
  rw [apply_filter_eq_map _ w hgt ch "invert" hlen2, if_pos rfl, h1, List.map_map]
  calc List.map ((fun b => 255 - b) ∘ fun b => 255 - b) data
      = List.map id data := by
        apply List.map_congr_left
        intro b hb
        have : b < 256 := hbytes b hb
        simp only [Function.comp_apply, id_eq]
        omega
    _ = data := List.map_id data

/-- Witness for C6 on the block [0, 255, 17] of size 3 * 1 * 1. -/
theorem invert_twice_identity_witness :
    (([0, 255, 17] : List ℕ).length = 3 * 1 * 1 ∧ ∀ b ∈ ([0, 255, 17] : List ℕ), b < 256) ∧
    apply_filter (apply_filter [0, 255, 17] 3 1 1 "invert") 3 1 1 "invert"
      = [0, 255, 17] :=
  ⟨by simp, invert_twice_identity [0, 255, 17] 3 1 1 (by simp) (by simp)⟩

/-- C8: any filter string other than invert, brightness and contrast
falls through every branch of apply_filter and leaves the buffer
unchanged; no error is reported. -/
theorem unknown_filter_identity (data : List ℕ) (w hgt ch : ℕ) (ft : String)
    (h1 : ft ≠ "invert") (h2 : ft ≠ "brightness") (h3 : ft ≠ "contrast") :
    apply_filter data w hgt ch ft = data := by
  simp [apply_filter, h1, h2, h3]

/-- Witness for C8 with the unrecognized filter string blur. -/
theorem unknown_filter_identity_witness :
    (("blur" : String) ≠ "invert" ∧ ("blur" : String) ≠ "brightness" ∧
      ("blur" : String) ≠ "contrast") ∧
    apply_filter [1, 2] 2 1 1 "blur" = [1, 2] :=
  ⟨by decide, unknown_filter_identity [1, 2] 2 1 1 "blur" (by decide) (by decide)
    (by decide)⟩

/-- C9: every filter is a pointwise per-byte map, so filtering the
concatenation of two blocks equals concatenating the filtered blocks;
local filtering of each partition agrees with filtering the whole
image. -/
theorem apply_filter_append (ft : String) (A B : List ℕ) (w hA hB ch : ℕ)
    (hA' : A.length = w * hA * ch) (hB' : B.length = w * hB * ch) :
    apply_filter (A ++ B) w (hA + hB) ch ft
      = apply_filter A w hA ch ft ++ apply_filter B w hB ch ft := by
  have hAB : (A ++ B).length = w * (hA + hB) * ch := by
    rw [List.length_append, hA', hB']
    ring
  rw [apply_filter_eq_map _ w (hA + hB) ch ft hAB,
    apply_filter_eq_map A w hA ch ft hA', apply_filter_eq_map B w hB ch ft hB']
  split_ifs <;> simp [List.map_append]

/-- Witness for C9: the invert filter on blocks [1, 2] and [3, 4, 5, 6]
with width 1, channels 1. -/
theorem apply_filter_append_witness :
    (([1, 2] : List ℕ).length = 1 * 2 * 1 ∧ ([3, 4, 5, 6] : List ℕ).length = 1 * 4 * 1) ∧
    apply_filter ([1, 2] ++ [3, 4, 5, 6]) 1 (2 + 4) 1 "invert"
      = apply_filter [1, 2] 1 2 1 "invert" ++ apply_filter [3, 4, 5, 6] 1 4 1 "invert" :=
  ⟨by simp, apply_filter_append "invert" [1, 2] [3, 4, 5, 6] 1 2 4 1 (by simp) (by simp)⟩

/-! ## Contrast filter: the code truncates, the claim rounds -/

/-- C4 counterexample: on the byte 127 the contrast branch computes
(127 - 128) * 1.2f + 128 = 126.80000305...f and the int cast truncates it
to 126, while the claimed formula clamp(round((127 - 128) * 1.2 + 128))
rounds 126.8 to 127.  The first conjunct evaluates the code on the byte,
the second evaluates the claimed formula. -/
theorem contrast_round_counterexample :
    apply_filter [127] 1 1 1 "contrast" = [126] ∧ contrast_claim_formula 127 = 127 := by
  constructor
  · decide
  · have hv : (((127 : ℕ) : ℚ) - 128) * 1.2 + 128 = 634 / 5 := by norm_num
    have hr : round ((634 : ℚ) / 5) = 127 := by
      rw [round_eq]
      have : ⌊(634 : ℚ) / 5 + 1 / 2⌋ = 127 := by
        rw [Int.floor_eq_iff]
        norm_num
      simpa using this
    simp only [contrast_claim_formula, hv, hr]
    decide

lemma contrast_byte_le (b : ℕ) : contrast_byte b ≤ 255 := by
  simp only [contrast_byte]
  split_ifs <;> omega

set_option maxRecDepth 10000 in
lemma contrast_byte_step : ∀ p, p < 255 → contrast_byte p ≤ contrast_byte (p + 1) := by
  decide

lemma contrast_byte_mono_aux :
    ∀ d p, p + d ≤ 255 → contrast_byte p ≤ contrast_byte (p + d) := by
  intro d
  induction d with
  | zero => intro p _; exact le_refl _
  | succ e ih =>
    intro p hpe
    calc contrast_byte p ≤ contrast_byte (p + e) := ih p (by omega)
      _ ≤ contrast_byte (p + e + 1) := contrast_byte_step (p + e) (by omega)

/-- C4 amended: for every input byte p the Contrast filter replaces p
with clamp(trunc((p - 128) * 1.2f + 128), 0, 255), where the arithmetic
is IEEE-754 single precision and trunc is the C int cast truncating
toward zero, not rounding to nearest; the result is always in [0, 255]
and the transform is monotonic. -/
theorem contrast_clamped_monotone (p₁ p₂ : ℕ) (h₁₂ : p₁ ≤ p₂) (h₂ : p₂ ≤ 255) :
    apply_filter [p₂] 1 1 1 "contrast" = [contrast_byte p₂] ∧
    contrast_byte p₂ ≤ 255 ∧ contrast_byte p₁ ≤ contrast_byte p₂ := by
  refine ⟨?_, contrast_byte_le p₂, ?_⟩
  · simp [apply_filter, mapBelow]
  · have : p₂ = p₁ + (p₂ - p₁) := by omega
    rw [this]
    exact contrast_byte_mono_aux (p₂ - p₁) p₁ (by omega)

/-- Witness for C4 amended at bytes 100 and 200. -/
theorem contrast_clamped_monotone_witness :
    (100 ≤ 200 ∧ 200 ≤ 255) ∧
    (apply_filter [200] 1 1 1 "contrast" = [contrast_byte 200] ∧
      contrast_byte 200 ≤ 255 ∧ contrast_byte 100 ≤ contrast_byte 200) :=
  ⟨by omega, contrast_clamped_monotone 100 200 (by omega) (by omega)⟩
